import Mathlib

/-!
# Verification of the `ang` angle library (`src/lib.rs`)

Shallow embedding of the Rust crate `ang`: a tagged angle value
`Angle<T>` with variants `Radians(T)` and `Degrees(T)`, unit conversion,
normalization, minimal angular distance, arithmetic operators, equality,
and the free functions `asin`, `acos`, `atan`, `atan2`, `mean_angle`.

The embedding monomorphizes the payload type `T` to `ℝ` (the crate's
default is `f64`; the numeric casts through `f64` are then identities).
Rust's `%` on floats is the truncated remainder `x - y * trunc(x / y)`,
embedded as `rustRem` below.  For the two claims whose content is NaN
propagation (`asin`/`acos` domain detection and `mean_angle` on the empty
list), a second carrier `FV := Option ℝ` is used, where `none` stands for
the non-finite result NaN and every operation of the float library
propagates it, exactly as IEEE arithmetic propagates NaN.
-/

namespace Ang

open Real

/-- Truncation toward zero, as Rust's `f64::trunc` (exact on reals). -/
noncomputable def truncR (x : ℝ) : ℤ :=
  if 0 ≤ x then ⌊x⌋ else ⌈x⌉

/-- Rust's `%` on floats: the truncated remainder `x - y * (x/y).trunc()`. -/
noncomputable def rustRem (x y : ℝ) : ℝ :=
  x - y * truncR (x / y)

/-- `enum Angle<T> { Radians(T), Degrees(T) }` at `T = ℝ`. -/
inductive Angle where
  | Radians (v : ℝ)
  | Degrees (v : ℝ)

open Angle

/-- Observation helper: the unit tag, `true` for `Degrees`. -/
def isDegrees : Angle → Bool
  | Radians _ => false
  | Degrees _ => true

/-- Observation helper: the raw stored payload. -/
def payload : Angle → ℝ
  | Radians v => v
  | Degrees v => v

/-- `Angle::in_radians`: identity on `Radians`, else `v / 180.0 * PI`
(the crate casts through `f64`; at `T = ℝ` the casts are identities). -/
noncomputable def in_radians : Angle → ℝ
  | Radians v => v
  | Degrees v => v / 180 * π

/-- `Angle::in_degrees`: identity on `Degrees`, else `v / PI * 180.0`. -/
noncomputable def in_degrees : Angle → ℝ
  | Radians v => v / π * 180
  | Degrees v => v

/-- The period of one full turn in the angle's own unit: `2π` for a
`Radians` value, `360` for a `Degrees` value (the `upper` bound of
`Angle::normalized`). -/
noncomputable def upper : Angle → ℝ
  | Radians _ => 2 * π
  | Degrees _ => 360

/-- `Angle::normalized`: map the stored value into `[0, upper)` keeping
the tag.  Fast path when already in range; otherwise truncated remainder,
plus one period if that came out negative. -/
noncomputable def normalized (a : Angle) : Angle :=
  let v := payload a
  let u := upper a
  let n :=
    if v < u ∧ 0 ≤ v then v
    else
      let v' := rustRem v u
      if 0 ≤ v' then v' else v' + u
  match a with
  | Radians _ => Radians n
  | Degrees _ => Degrees n

/-- `Angle::min_dist`: minimal unsigned distance, radians-tagged.
Fast path `min d (2π - d)` when both radian values already lie in
`[0, 2π)`, general path `π - |((d % 2π) - π)|` otherwise. -/
noncomputable def min_dist (a b : Angle) : Angle :=
  let ar := in_radians a
  let br := in_radians b
  let d := |ar - br|
  Radians (if 0 ≤ ar ∧ ar < 2 * π ∧ 0 ≤ br ∧ br < 2 * π then
    min d (2 * π - d)
  else
    π - |rustRem d (2 * π) - π|)

/-- `Add for Angle<T>` (`math_additive!`): `Degrees` + `Degrees` stays in
degrees; every other combination goes through `in_radians`. -/
noncomputable def add (a b : Angle) : Angle :=
  match a, b with
  | Degrees x, Degrees y => Degrees (x + y)
  | _, _ => Radians (in_radians a + in_radians b)

/-- `Sub for Angle<T>` (`math_additive!`). -/
noncomputable def sub (a b : Angle) : Angle :=
  match a, b with
  | Degrees x, Degrees y => Degrees (x - y)
  | _, _ => Radians (in_radians a - in_radians b)

/-- `AddAssign for Angle<T>`: the state left in `*self` by `+=`
(state-passing embedding of the in-place mutation). -/
noncomputable def add_assign (a b : Angle) : Angle :=
  match a, b with
  | Degrees x, Degrees y => Degrees (x + y)
  | _, _ => Radians (in_radians a + in_radians b)

/-- `SubAssign for Angle<T>`: the state left in `*self` by `-=`. -/
noncomputable def sub_assign (a b : Angle) : Angle :=
  match a, b with
  | Degrees x, Degrees y => Degrees (x - y)
  | _, _ => Radians (in_radians a - in_radians b)

/-- `Mul<T> for Angle<T>` (`math_multiplicative!`): scales the payload,
keeps the tag. -/
noncomputable def mul (a : Angle) (rhs : ℝ) : Angle :=
  match a with
  | Radians v => Radians (v * rhs)
  | Degrees v => Degrees (v * rhs)

/-- `Div<T> for Angle<T>`. -/
noncomputable def div (a : Angle) (rhs : ℝ) : Angle :=
  match a with
  | Radians v => Radians (v / rhs)
  | Degrees v => Degrees (v / rhs)

/-- `MulAssign<T> for Angle<T>`: the state left by `*=`. -/
noncomputable def mul_assign (a : Angle) (rhs : ℝ) : Angle :=
  match a with
  | Radians v => Radians (v * rhs)
  | Degrees v => Degrees (v * rhs)

/-- `DivAssign<T> for Angle<T>`: the state left by `/=`. -/
noncomputable def div_assign (a : Angle) (rhs : ℝ) : Angle :=
  match a with
  | Radians v => Radians (v / rhs)
  | Degrees v => Degrees (v / rhs)

/-- `PartialEq for Angle<T>`: raw payload comparison when both sides are
`Degrees`, radian comparison in every other case. -/
noncomputable def beq (a b : Angle) : Prop :=
  match a, b with
  | Degrees x, Degrees y => x = y
  | _, _ => in_radians a = in_radians b

/- ### NaN-aware carrier for the float library

`FV` is the value space of an `f64` as far as this crate observes it:
`some v` a finite value, `none` the non-finite result NaN.  Every
arithmetic operation and comparison treats `none` the way IEEE treats
NaN: operations propagate it, ordered comparisons on it are false. -/

/-- Finite-or-NaN value of an `f64`. -/
abbrev FV := Option ℝ

/-- Float addition, NaN-propagating. -/
def fvAdd : FV → FV → FV
  | some x, some y => some (x + y)
  | _, _ => none

/-- Float division: `0/0` (any division by zero here) is NaN; within
`mean_angle` the divisor is zero only for the empty input, where the
dividend is zero as well. -/
noncomputable def fvDiv : FV → FV → FV
  | some x, some y => if y = 0 then none else some (x / y)
  | _, _ => none

/-- Float truncated remainder `%`, NaN-propagating (`x % 0` is NaN). -/
noncomputable def fvRem : FV → FV → FV
  | some x, some y => if y = 0 then none else some (rustRem x y)
  | _, _ => none

/-- Float `<`: false whenever a NaN is involved. -/
noncomputable def fvLt (a b : FV) : Bool :=
  match a, b with
  | some x, some y => decide (x < y)
  | _, _ => false

/-- Float `<=`/`>=` (as `a ≤ b`): false whenever a NaN is involved. -/
noncomputable def fvLe (a b : FV) : Bool :=
  match a, b with
  | some x, some y => decide (x ≤ y)
  | _, _ => false

/-- Four-quadrant arctangent on finite values (`f64::atan2`). -/
noncomputable def atan2R (y x : ℝ) : ℝ :=
  if 0 < x then arctan (y / x)
  else if x < 0 then
    (if 0 ≤ y then arctan (y / x) + π else arctan (y / x) - π)
  else (if 0 < y then π / 2 else if y < 0 then -(π / 2) else 0)

/-- Float `atan2`, NaN-propagating. -/
noncomputable def fvAtan2 : FV → FV → FV
  | some y, some x => some (atan2R y x)
  | _, _ => none

/-- Float sine, NaN-propagating (`sin_cos` first component). -/
noncomputable def fvSin : FV → FV
  | some v => some (Real.sin v)
  | none => none

/-- Float cosine, NaN-propagating (`sin_cos` second component). -/
noncomputable def fvCos : FV → FV
  | some v => some (Real.cos v)
  | none => none

/-- `Angle<f64>` with a NaN-aware payload. -/
inductive FAngle where
  | Radians (v : FV)
  | Degrees (v : FV)

/-- `Angle::in_radians` over the NaN-aware carrier: identity on
`Radians`, `v / 180.0 * PI` on `Degrees`. -/
noncomputable def f_in_radians : FAngle → FV
  | FAngle.Radians v => v
  | FAngle.Degrees v => v.map (fun w => w / 180 * π)

/-- `Angle::normalized` over the NaN-aware carrier: the same algorithm
as `normalized`, with float comparison semantics (a NaN payload fails
both the fast-path test and the sign test, and `%` and `+` keep it NaN). -/
noncomputable def fnormalized (a : FAngle) : FAngle :=
  let v : FV := match a with
    | FAngle.Radians v => v
    | FAngle.Degrees v => v
  let u : FV := match a with
    | FAngle.Radians _ => some (2 * π)
    | FAngle.Degrees _ => some 360
  let n : FV :=
    if fvLt v u && fvLe (some 0) v then v
    else
      let v' := fvRem v u
      if fvLe (some 0) v' then v' else fvAdd v' u
  match a with
  | FAngle.Radians _ => FAngle.Radians n
  | FAngle.Degrees _ => FAngle.Degrees n

/-- `Angle::sin_cos` over the NaN-aware carrier: `(sin, cos)` of the
radian value. -/
noncomputable def f_sin_cos (a : FAngle) : FV × FV :=
  (fvSin (f_in_radians a), fvCos (f_in_radians a))

/-- `mean_angle`: accumulate `Σcos` into `x`, `Σsin` into `y`, count `n`;
result is `Radians((y/n).atan2(x/n)).normalized()`. -/
noncomputable def mean_angle (angles : List FAngle) : FAngle :=
  let acc := angles.foldl
    (fun (s : FV × FV × ℕ) angle =>
      let sc := f_sin_cos angle
      (fvAdd s.1 sc.2, fvAdd s.2.1 sc.1, s.2.2 + 1))
    (some 0, some 0, 0)
  let x := acc.1
  let y := acc.2.1
  let n : FV := some (acc.2.2 : ℝ)
  fnormalized (FAngle.Radians (fvAtan2 (fvDiv y n) (fvDiv x n)))

/-- `f64::asin` of the Rust float library (a collaborator, not part of
this repository): NaN (`none`) outside `[-1, 1]`, the principal arcsine
inside. -/
noncomputable def float_asin (v : ℝ) : FV :=
  if -1 ≤ v ∧ v ≤ 1 then some (Real.arcsin v) else none

/-- `f64::acos` of the Rust float library: NaN outside `[-1, 1]`, the
principal arccosine inside. -/
noncomputable def float_acos (v : ℝ) : FV :=
  if -1 ≤ v ∧ v ≤ 1 then some (Real.arccos v) else none

/-- Free function `asin`: compute `value.asin()`; return `None` exactly
when the computed result is NaN, else `Some(Radians(result))`. -/
noncomputable def asin (v : ℝ) : Option Angle :=
  match float_asin v with
  | none => none
  | some r => some (Radians r)

/-- Free function `acos`, same shape as `asin`. -/
noncomputable def acos (v : ℝ) : Option Angle :=
  match float_acos v with
  | none => none
  | some r => some (Radians r)

end Ang

namespace Ang

open Angle Real

/- ### Toolbox lemmas about the truncated remainder -/

theorem truncR_intCast (k : ℤ) : truncR (k : ℝ) = k := by
  unfold truncR
  split <;> simp

theorem rustRem_eq_fract (x y : ℝ) (hx : 0 ≤ x) (hy : 0 < y) :
    rustRem x y = y * Int.fract (x / y) := by
  unfold rustRem truncR
  rw [if_pos (div_nonneg hx hy.le), Int.fract]
  have hxe : x / y * y = x := div_mul_cancel₀ x hy.ne'
  nlinarith [hxe]

theorem rustRem_nonneg (x y : ℝ) (hx : 0 ≤ x) (hy : 0 < y) :
    0 ≤ rustRem x y := by
  rw [rustRem_eq_fract x y hx hy]
  exact mul_nonneg hy.le (Int.fract_nonneg _)

theorem rustRem_lt (x y : ℝ) (hx : 0 ≤ x) (hy : 0 < y) :
    rustRem x y < y := by
  rw [rustRem_eq_fract x y hx hy]
  calc y * Int.fract (x / y) < y * 1 :=
        (mul_lt_mul_left hy).mpr (Int.fract_lt_one _)
    _ = y := mul_one y

theorem rustRem_neg_bounds (x y : ℝ) (hx : x < 0) (hy : 0 < y) :
    -y < rustRem x y ∧ rustRem x y ≤ 0 := by
  have hxy : ¬ 0 ≤ x / y := not_le.mpr (div_neg_of_neg_of_pos hx hy)
  unfold rustRem truncR
  rw [if_neg hxy]
  have h1 : (⌈x / y⌉ : ℝ) < x / y + 1 := Int.ceil_lt_add_one (x / y)
  have h2 : x / y ≤ (⌈x / y⌉ : ℝ) := Int.le_ceil (x / y)
  have hxe : x / y * y = x := div_mul_cancel₀ x hy.ne'
  constructor
  · nlinarith [mul_lt_mul_of_pos_left h1 hy, hxe]
  · nlinarith [mul_le_mul_of_nonneg_left h2 hy.le, hxe]

theorem rustRem_int_multiple (k : ℤ) (y : ℝ) (hy : y ≠ 0) :
    rustRem (k * y) y = 0 := by
  unfold rustRem
  rw [mul_div_assoc, div_self hy, mul_one, truncR_intCast]
  ring

theorem rustRem_self_of_lt (x y : ℝ) (hx : 0 ≤ x) (hxy : x < y) :
    rustRem x y = x := by
  have hy : 0 < y := lt_of_le_of_lt hx hxy
  unfold rustRem truncR
  rw [if_pos (div_nonneg hx hy.le)]
  have h0 : ⌊x / y⌋ = 0 := by
    rw [Int.floor_eq_zero_iff]
    constructor
    · exact div_nonneg hx hy.le
    · rw [div_lt_one hy]; exact hxy
  rw [h0]
  simp

/- ### Helper lemmas about `normalized` and `min_dist` -/

theorem isDegrees_normalized (a : Angle) :
    isDegrees (normalized a) = isDegrees a := by
  cases a <;> rfl

theorem payload_normalized (a : Angle) :
    payload (normalized a) =
      if payload a < upper a ∧ 0 ≤ payload a then payload a
      else if 0 ≤ rustRem (payload a) (upper a) then
        rustRem (payload a) (upper a)
      else rustRem (payload a) (upper a) + upper a := by
  cases a <;> rfl

theorem upper_pos (a : Angle) : 0 < upper a := by
  cases a with
  | Radians v => simp only [upper]; positivity
  | Degrees v => simp only [upper]; norm_num

theorem min_dist_eq (a b : Angle) :
    min_dist a b =
      Radians (if 0 ≤ in_radians a ∧ in_radians a < 2 * π ∧
                  0 ≤ in_radians b ∧ in_radians b < 2 * π then
        min |in_radians a - in_radians b|
          (2 * π - |in_radians a - in_radians b|)
      else
        π - |rustRem |in_radians a - in_radians b| (2 * π) - π|) := rfl

/- ### Claim theorems -/

/-- C1: binary `add`/`sub` return `Degrees(x op y)` when both operands
are `Degrees`, and `Radians(a.in_radians() op b.in_radians())` in every
other case (radians+radians and mixed tags alike); in particular
`Radians x + Radians y = Radians (x + y)`. -/
theorem add_sub_tag_rule (x y : ℝ) :
    add (Degrees x) (Degrees y) = Degrees (x + y) ∧
    sub (Degrees x) (Degrees y) = Degrees (x - y) ∧
    add (Radians x) (Radians y) =
      Radians (in_radians (Radians x) + in_radians (Radians y)) ∧
    sub (Radians x) (Radians y) =
      Radians (in_radians (Radians x) - in_radians (Radians y)) ∧
    add (Radians x) (Degrees y) =
      Radians (in_radians (Radians x) + in_radians (Degrees y)) ∧
    add (Degrees x) (Radians y) =
      Radians (in_radians (Degrees x) + in_radians (Radians y)) ∧
    sub (Radians x) (Degrees y) =
      Radians (in_radians (Radians x) - in_radians (Degrees y)) ∧
    sub (Degrees x) (Radians y) =
      Radians (in_radians (Degrees x) - in_radians (Radians y)) ∧
    add (Radians x) (Radians y) = Radians (x + y) :=
  ⟨rfl, rfl, rfl, rfl, rfl, rfl, rfl, rfl, rfl⟩

/-- C2: equality holds iff both sides are `Degrees` with equal raw
payloads, or, in every other tag combination, their radian-converted
values are equal; two `Degrees` values are compared raw, never through
radian conversion. -/
theorem eq_tag_rule (x y : ℝ) :
    (beq (Degrees x) (Degrees y) ↔ x = y) ∧
    (beq (Radians x) (Radians y) ↔
      in_radians (Radians x) = in_radians (Radians y)) ∧
    (beq (Radians x) (Degrees y) ↔
      in_radians (Radians x) = in_radians (Degrees y)) ∧
    (beq (Degrees x) (Radians y) ↔
      in_radians (Degrees x) = in_radians (Radians y)) :=
  ⟨Iff.rfl, Iff.rfl, Iff.rfl, Iff.rfl⟩

/-- C3: `normalized` preserves the unit tag and yields a payload in
`[0, upper)` with `upper = 2π` for radians and `360` for degrees; an
exact integer multiple of `upper` (negative multiples included)
normalizes to exactly `0`. -/
theorem normalized_range (a : Angle) :
    isDegrees (normalized a) = isDegrees a ∧
    0 ≤ payload (normalized a) ∧
    payload (normalized a) < upper a ∧
    (∀ k : ℤ, payload a = k * upper a → payload (normalized a) = 0) := by
  have hu : 0 < upper a := upper_pos a
  refine ⟨isDegrees_normalized a, ?_, ?_, ?_⟩
  · rw [payload_normalized]
    split_ifs with h1 h2
    · exact h1.2
    · exact h2
    · rcases lt_or_le (payload a) 0 with hv | hv
      · have := rustRem_neg_bounds (payload a) (upper a) hv hu
        linarith [this.1]
      · exact absurd (rustRem_nonneg (payload a) (upper a) hv hu) h2
  · rw [payload_normalized]
    split_ifs with h1 h2
    · exact h1.1
    · rcases lt_or_le (payload a) 0 with hv | hv
      · have := rustRem_neg_bounds (payload a) (upper a) hv hu
        linarith [this.2]
      · exact rustRem_lt (payload a) (upper a) hv hu
    · rcases lt_or_le (payload a) 0 with hv | hv
      · have := rustRem_neg_bounds (payload a) (upper a) hv hu
        linarith [this.2]
      · exact absurd (rustRem_nonneg (payload a) (upper a) hv hu) h2
  · intro k hk
    have hrem : rustRem (payload a) (upper a) = 0 := by
      rw [hk]
      exact rustRem_int_multiple k (upper a) hu.ne'
    rw [payload_normalized]
    split_ifs with h1 h2
    · have h0 : (0:ℝ) ≤ (k:ℝ) * upper a := hk ▸ h1.2
      have h1' : (k:ℝ) * upper a < upper a := hk ▸ h1.1
      have hk0 : (0:ℝ) ≤ (k:ℝ) := by
        by_contra hneg
        push_neg at hneg
        nlinarith [mul_neg_of_neg_of_pos hneg hu]
      have hk1 : (k:ℝ) < 1 := by
        by_contra hge
        push_neg at hge
        nlinarith
      have : k = 0 := by
        have : (0:ℤ) ≤ k ∧ k < 1 := ⟨by exact_mod_cast hk0, by exact_mod_cast hk1⟩
        omega
      rw [hk, this]
      simp
    · exact hrem
    · exact absurd (le_of_eq hrem.symm) h2

/-- C3 witness: `Radians (-2 · 2π)` is an exact negative multiple of its
period and normalizes to payload `0`. -/
theorem normalized_range_witness :
    payload (Radians (-2 * (2 * π))) =
      (-2 : ℤ) * upper (Radians (-2 * (2 * π))) ∧
    payload (normalized (Radians (-2 * (2 * π)))) = 0 := by
  have h : payload (Radians (-2 * (2 * π))) =
      (-2 : ℤ) * upper (Radians (-2 * (2 * π))) := by
    simp only [payload, upper]
    push_cast
    ring
  exact ⟨h, (normalized_range (Radians (-2 * (2 * π)))).2.2.2 (-2) h⟩

/-- C4: `in_radians` is the identity on `Radians` and `v · π / 180` on
`Degrees`; `in_degrees` is the identity on `Degrees` and `v · 180 / π`
on `Radians` (at the real payload type, the crate's `f64` casts are
identities). -/
theorem conversion_formulas (v : ℝ) :
    in_radians (Radians v) = v ∧
    in_radians (Degrees v) = v * π / 180 ∧
    in_degrees (Degrees v) = v ∧
    in_degrees (Radians v) = v * 180 / π := by
  refine ⟨rfl, ?_, rfl, ?_⟩
  · show v / 180 * π = v * π / 180
    ring
  · show v / π * 180 = v * 180 / π
    ring

/-- C5: `min_dist` always returns a `Radians`-tagged value whose payload
lies in the closed interval `[0, π]`. -/
theorem min_dist_range (a b : Angle) :
    isDegrees (min_dist a b) = false ∧
    0 ≤ payload (min_dist a b) ∧ payload (min_dist a b) ≤ π := by
  have hπ : (0:ℝ) < π := pi_pos
  rw [min_dist_eq]
  set ar := in_radians a
  set br := in_radians b
  set d := |ar - br| with hd_def
  have hd : 0 ≤ d := abs_nonneg _
  refine ⟨rfl, ?_⟩
  simp only [payload]
  split_ifs with h
  · obtain ⟨ha0, ha2, hb0, hb2⟩ := h
    have hdlt : d < 2 * π := by
      rw [hd_def]
      rw [abs_lt]
      constructor <;> linarith
    constructor
    · exact le_min hd (by linarith)
    · rcases le_or_lt d π with hle | hlt
      · exact le_trans (min_le_left _ _) hle
      · exact le_trans (min_le_right _ _) (by linarith)
  · have h2π : (0:ℝ) < 2 * π := by linarith
    have hr0 : 0 ≤ rustRem d (2 * π) := rustRem_nonneg d (2 * π) hd h2π
    have hr2 : rustRem d (2 * π) < 2 * π := rustRem_lt d (2 * π) hd h2π
    have habs : |rustRem d (2 * π) - π| ≤ π :=
      abs_le.mpr ⟨by linarith, by linarith⟩
    constructor
    · linarith
    · linarith [abs_nonneg (rustRem d (2 * π) - π)]

/-- C6: when both radian values lie in `[0, 2π)`, the fast path of
`min_dist` returns exactly what the general path
`π - |((d % 2π) - π)|` would return: the short-circuit is a pure
optimization. -/
theorem min_dist_fast_path_agrees (a b : Angle)
    (ha0 : 0 ≤ in_radians a) (ha2 : in_radians a < 2 * π)
    (hb0 : 0 ≤ in_radians b) (hb2 : in_radians b < 2 * π) :
    min_dist a b =
      Radians (π - |rustRem |in_radians a - in_radians b| (2 * π) - π|) := by
  rw [min_dist_eq, if_pos ⟨ha0, ha2, hb0, hb2⟩]
  set d := |in_radians a - in_radians b| with hd_def
  have hd : 0 ≤ d := abs_nonneg _
  have hdlt : d < 2 * π := by
    rw [hd_def, abs_lt]
    constructor <;> linarith
  rw [rustRem_self_of_lt d (2 * π) hd hdlt]
  rcases le_total d π with hle | hge
  · rw [abs_of_nonpos (by linarith : d - π ≤ 0)]
    rw [min_eq_left (by linarith)]
    exact congrArg Radians (by ring)
  · rw [abs_of_nonneg (by linarith : 0 ≤ d - π)]
    rw [min_eq_right (by linarith)]
    exact congrArg Radians (by ring)

/-- C6 witness: `Radians 1` and `Radians 2` are both normalized, and the
fast path agrees with the general formula on them. -/
theorem min_dist_fast_path_agrees_witness :
    0 ≤ in_radians (Radians 1) ∧ in_radians (Radians 1) < 2 * π ∧
    0 ≤ in_radians (Radians 2) ∧ in_radians (Radians 2) < 2 * π ∧
    min_dist (Radians 1) (Radians 2) =
      Radians (π -
        |rustRem |in_radians (Radians 1) - in_radians (Radians 2)| (2 * π)
          - π|) := by
  have h1 : (0:ℝ) ≤ in_radians (Radians 1) := by norm_num [in_radians]
  have h2 : in_radians (Radians 1) < 2 * π := by
    show (1:ℝ) < 2 * π
    nlinarith [pi_gt_three]
  have h3 : (0:ℝ) ≤ in_radians (Radians 2) := by norm_num [in_radians]
  have h4 : in_radians (Radians 2) < 2 * π := by
    show (2:ℝ) < 2 * π
    nlinarith [pi_gt_three]
  exact ⟨h1, h2, h3, h4,
    min_dist_fast_path_agrees (Radians 1) (Radians 2) h1 h2 h3 h4⟩

/-- C7: `asin v` is `None` exactly when `v` is outside `[-1, 1]`
(detected by the arcsine coming back NaN), else
`Some (Radians (arcsin v))`; `acos` has the same domain contract and its
result lies in `[0, π]`. -/
theorem asin_acos_domain (v : ℝ) :
    ((v < -1 ∨ 1 < v) → asin v = none ∧ acos v = none) ∧
    (-1 ≤ v → v ≤ 1 →
      asin v = some (Radians (Real.arcsin v)) ∧
      acos v = some (Radians (Real.arccos v)) ∧
      0 ≤ Real.arccos v ∧ Real.arccos v ≤ π) := by
  constructor
  · intro h
    have hc : ¬ (-1 ≤ v ∧ v ≤ 1) := by
      rcases h with h | h <;> intro hc <;> rcases hc with ⟨hc1, hc2⟩ <;> linarith
    constructor
    · unfold asin float_asin
      rw [if_neg hc]
    · unfold acos float_acos
      rw [if_neg hc]
  · intro h1 h2
    have hc : -1 ≤ v ∧ v ≤ 1 := ⟨h1, h2⟩
    refine ⟨?_, ?_, Real.arccos_nonneg v, Real.arccos_le_pi v⟩
    · unfold asin float_asin
      rw [if_pos hc]
    · unfold acos float_acos
      rw [if_pos hc]

/-- C7 witness: `asin 2` is absent, `acos 0` is present. -/
theorem asin_acos_domain_witness :
    asin (2:ℝ) = none ∧ acos (0:ℝ) = some (Radians (Real.arccos 0)) :=
  ⟨((asin_acos_domain 2).1 (Or.inr (by norm_num))).1,
   (((asin_acos_domain 0).2 (by norm_num) (by norm_num)).2).1⟩

/-- C8: the round trip `Degrees(a.in_degrees()).in_radians()` equals
`a.in_radians()` within `1e-10` (over the real model it is exact). -/
theorem degrees_radians_round_trip (a : Angle) :
    |in_radians (Degrees (in_degrees a)) - in_radians a| ≤ 1e-10 := by
  have h : in_radians (Degrees (in_degrees a)) = in_radians a := by
    cases a with
    | Radians v =>
        show v / π * 180 / 180 * π = v
        field_simp
        ring
    | Degrees v => rfl
  rw [h, sub_self, abs_zero]
  norm_num

/-- C9: each compound-assignment operator leaves the mutated angle equal
(same tag, same payload) to the result of the corresponding non-assigning
operator on the original value, with the same tag-dispatch rule. -/
theorem assign_ops_match (a b : Angle) (x : ℝ) :
    add_assign a b = add a b ∧ sub_assign a b = sub a b ∧
    mul_assign a x = mul a x ∧ div_assign a x = div a x := by
  cases a <;> cases b <;> exact ⟨rfl, rfl, rfl, rfl⟩

/-- C10: on the empty input `mean_angle` returns a `Radians`-tagged NaN:
the `0/0` divisions feed NaN into `atan2`, and `normalized` maps a NaN
payload to a NaN payload. -/
theorem mean_angle_empty_nan :
    fvDiv (some 0) (some 0) = none ∧
    fvAtan2 none none = none ∧
    fnormalized (FAngle.Radians none) = FAngle.Radians none ∧
    mean_angle [] = FAngle.Radians none := by
  have hdiv : fvDiv (some 0) (some 0) = none := by
    simp [fvDiv]
  have hnorm : fnormalized (FAngle.Radians none) = FAngle.Radians none := by
    unfold fnormalized fvLt fvLe fvRem fvAdd
    simp
  refine ⟨hdiv, rfl, hnorm, ?_⟩
  unfold mean_angle
  simp only [List.foldl_nil, Nat.cast_zero]
  rw [hdiv]
  exact hnorm

end Ang
